import Mathlib

/-!
Verification of the addressable (indirect) binary min-heap implemented in
src/minheap.c.  The C program stores heap nodes in a 1-based array
interpreted as a complete binary tree, together with a reverse index map
from node identifier to its current array position.  This file gives a
shallow embedding of that program: C arrays become total functions from
Int, C int values become Int, and the two recursive/iterative sift
procedures become fuel-indexed structural recursions (the fuel supplied at
the call sites is the bound that the position argument provides: sift-up
halves the position on every step and sift-down at least doubles it, so
the recursion depth of the C code never exceeds the fuel used here on any
state the claims quantify over).
-/

set_option linter.unusedVariables false

namespace MinHeapModel

/-- A heap node, a pair of priority and identifier, as in minheap.h. -/
structure HeapNode where
  priority : Int
  id : Int
deriving DecidableEq

/-- The heap state: node array (1-based positions), identifier to position
index map, current size and fixed capacity.  C arrays are modelled as
total functions from Int. -/
structure MinHeap where
  size : Int
  capacity : Int
  arr : Int → HeapNode
  indexMap : Int → Int

/-- Pointwise store into a modelled C array. -/
def updateFn {α : Type} (f : Int → α) (a : Int) (v : α) : Int → α :=
  fun x => if x = a then v else f x

/-- The NOTHING sentinel of minheap.c. -/
def NOTHING : Int := -1

/-- The ROOT_INDEX constant of minheap.c. -/
def ROOT_INDEX : Int := 1

/-- isValidIndex from minheap.c: maybeIdx >= ROOT_INDEX && maybeIdx <= heap->size. -/
def isValidIndex (heap : MinHeap) (maybeIdx : Int) : Bool :=
  decide (ROOT_INDEX ≤ maybeIdx) && decide (maybeIdx ≤ heap.size)

/-- nodeAt from minheap.c. -/
def nodeAt (heap : MinHeap) (nodeIndex : Int) : HeapNode :=
  heap.arr nodeIndex

/-- priorityAt from minheap.c. -/
def priorityAt (heap : MinHeap) (nodeIndex : Int) : Int :=
  (heap.arr nodeIndex).priority

/-- idAt from minheap.c. -/
def idAt (heap : MinHeap) (nodeIndex : Int) : Int :=
  (heap.arr nodeIndex).id

/-- indexOf from minheap.c. -/
def indexOf (heap : MinHeap) (id : Int) : Int :=
  heap.indexMap id

/-- leftIdx from minheap.c: the index of the left child of nodeIndex, or
NOTHING when nodeIndex is invalid or the left child slot is beyond size. -/
def leftIdx (heap : MinHeap) (nodeIndex : Int) : Int :=
  if !(isValidIndex heap nodeIndex) then NOTHING
  else
    let left := 2 * nodeIndex
    if isValidIndex heap left then left else NOTHING

/-- rightIdx from minheap.c. -/
def rightIdx (heap : MinHeap) (nodeIndex : Int) : Int :=
  if !(isValidIndex heap nodeIndex) then NOTHING
  else
    let right := 2 * nodeIndex + 1
    if isValidIndex heap right then right else NOTHING

/-- parentIdx from minheap.c: NOTHING at the root or an invalid index,
nodeIndex / 2 otherwise (the division only ever happens on indices that
are at least 2, where C truncating division agrees with Int division). -/
def parentIdx (heap : MinHeap) (nodeIndex : Int) : Int :=
  if nodeIndex = 1 || !(isValidIndex heap nodeIndex) then NOTHING
  else nodeIndex / 2

/-- swap from minheap.c: exchanges the nodes at index1 and index2 and
updates the index map entries of both identifiers, when both indices are
valid; has no effect otherwise.  As in the C code, the index map is
written first (reading the identifiers from the unmodified array) and the
array is exchanged second. -/
def swap (heap : MinHeap) (index1 index2 : Int) : MinHeap :=
  if isValidIndex heap index1 && isValidIndex heap index2 then
    let temp := nodeAt heap index1
    let im := updateFn (updateFn heap.indexMap (idAt heap index1) index2)
      (idAt heap index2) index1
    let a := updateFn (updateFn heap.arr index1 (nodeAt heap index2)) index2 temp
    { heap with indexMap := im, arr := a }
  else heap

/-- The recursion of bubbleUp from minheap.c, made structural on a fuel
argument.  The body is the literal body of the C function; the recursive
call re-derives the current position of the tracked identifier from the
index map, exactly as the source does. -/
def bubbleUpAux (heap : MinHeap) (nodeIndex : Int) : Nat → MinHeap
  | 0 => heap
  | fuel + 1 =>
    if heap.size = 0 then heap
    else
      let parent := parentIdx heap nodeIndex
      if parent = NOTHING then heap
      else
        let id := idAt heap nodeIndex
        if priorityAt heap parent > priorityAt heap nodeIndex then
          let heap2 := swap heap parent nodeIndex
          bubbleUpAux heap2 (indexOf heap2 id) fuel
        else heap

/-- bubbleUp from minheap.c.  The fuel nodeIndex.toNat dominates the
recursion depth: each recursive call moves to the parent index
nodeIndex / 2, which is strictly smaller. -/
def bubbleUp (heap : MinHeap) (nodeIndex : Int) : MinHeap :=
  bubbleUpAux heap nodeIndex nodeIndex.toNat

/-- The while loop of bubbleDown from minheap.c, made structural on a fuel
argument.  left and right are the loop variables of the C code; the body
re-derives the position of the tracked identifier from the index map
before every read and swap, exactly as the source does. -/
def bubbleDownAux (heap : MinHeap) (id left right : Int) : Nat → MinHeap
  | 0 => heap
  | fuel + 1 =>
    if left = NOTHING then heap
    else
      let priority := priorityAt heap (indexOf heap id)
      let priorityLeft := priorityAt heap left
      let step := fun (target : Int) =>
        let heap2 := swap heap (indexOf heap id) target
        bubbleDownAux heap2 id (leftIdx heap2 (indexOf heap2 id))
          (rightIdx heap2 (indexOf heap2 id)) fuel
      if right = NOTHING then
        if priority > priorityLeft then step left else heap
      else
        let priorityRight := priorityAt heap right
        if priority > priorityLeft && priority > priorityRight then
          if priorityLeft < priorityRight then step left else step right
        else if priority > priorityLeft then step left
        else if priority > priorityRight then step right
        else heap

/-- bubbleDown from minheap.c.  The fuel heap.size.toNat dominates the
number of loop iterations: the tracked position at least doubles on every
iteration and the loop stops once it has no left child within size. -/
def bubbleDown (heap : MinHeap) : MinHeap :=
  if heap.size > 0 then
    let id := idAt heap ROOT_INDEX
    bubbleDownAux heap id (leftIdx heap ROOT_INDEX) (rightIdx heap ROOT_INDEX)
      heap.size.toNat
  else heap

/-- getMin from minheap.c. -/
def getMin (heap : MinHeap) : HeapNode :=
  heap.arr ROOT_INDEX

/-- extractMin from minheap.c, returning the updated heap together with
the removed node.  Mirrors the source statement for statement: swap root
and last node, save the node now at the last position, zero the index map
entry of its identifier, decrement size, and bubble the new root down. -/
def extractMin (heap : MinHeap) : MinHeap × HeapNode :=
  let h1 := swap heap ROOT_INDEX heap.size
  let save := nodeAt h1 h1.size
  let h2 : MinHeap :=
    { h1 with
      indexMap := updateFn h1.indexMap (idAt h1 h1.size) 0,
      size := h1.size - 1 }
  (bubbleDown h2, save)

/-- insert from minheap.c: write the new node at position size + 1, record
the position in the index map, increment size and bubble the new node up
from position size. -/
def insert (heap : MinHeap) (priority id : Int) : MinHeap :=
  let newNode : HeapNode := ⟨priority, id⟩
  let h1 : MinHeap :=
    { heap with
      arr := updateFn heap.arr (heap.size + 1) newNode,
      indexMap := updateFn heap.indexMap id (heap.size + 1),
      size := heap.size + 1 }
  bubbleUp h1 h1.size

/-- decreasePriority from minheap.c.  The source function is a stub: its
entire body is return false (with a TODO comment), so it never modifies
the heap and always reports failure. -/
def decreasePriority (heap : MinHeap) (id newPriority : Int) : MinHeap × Bool :=
  (heap, false)

/-- newHeap from minheap.c.  malloc leaves the node array and the index
map uninitialized, so the initial contents of both are arbitrary and are
taken as parameters here; size is 0 and the capacity is recorded. -/
def newHeap (capacity : Int) (arrInit : Int → HeapNode) (mapInit : Int → Int) :
    MinHeap :=
  { size := 0, capacity := capacity, arr := arrInit, indexMap := mapInit }

/-- Heap-order invariant I1 of the spec: every live non-root position has
priority at least that of its parent position p / 2. -/
def heapOrder (h : MinHeap) : Prop :=
  ∀ p : Int, 1 < p → p ≤ h.size → priorityAt h (p / 2) ≤ priorityAt h p

/-- Index-consistency invariant I3 of the spec: the index map entry of the
identifier stored at any live position is that position. -/
def indexConsistent (h : MinHeap) : Prop :=
  ∀ p : Int, 1 ≤ p → p ≤ h.size → h.indexMap (idAt h p) = p

/-- The identifier x is stored at no live position of h. -/
def LiveIdAbsent (h : MinHeap) (x : Int) : Prop :=
  ∀ q : Int, 1 ≤ q → q ≤ h.size → idAt h q ≠ x

/-- One public mutating operation of the heap interface. -/
inductive Op where
  | insertOp (priority id : Int)
  | extractMinOp
  | decreasePriorityOp (id newPriority : Int)

/-- The precondition of each public operation, as stated in the spec. -/
def precondOk (h : MinHeap) : Op → Prop
  | .insertOp _ id =>
      LiveIdAbsent h id ∧ 0 ≤ id ∧ id < h.capacity ∧ h.size < h.capacity
  | .extractMinOp => 0 < h.size
  | .decreasePriorityOp _ _ => True

/-- The state transformer of each public operation. -/
def applyOp (h : MinHeap) : Op → MinHeap
  | .insertOp priority id => insert h priority id
  | .extractMinOp => (extractMin h).1
  | .decreasePriorityOp id newPriority => (decreasePriority h id newPriority).1

/-- Heap states reachable from a freshly created heap by public operations
whose preconditions hold. -/
inductive Reachable : MinHeap → Prop where
  | init (capacity : Int) (arrInit : Int → HeapNode) (mapInit : Int → Int) :
      Reachable (newHeap capacity arrInit mapInit)
  | step (h : MinHeap) (op : Op) :
      Reachable h → precondOk h op → Reachable (applyOp h op)

/-- Heap order on every live edge except the one from k up to its parent. -/
def heapOrderExceptAt (h : MinHeap) (k : Int) : Prop :=
  ∀ p : Int, 1 < p → p ≤ h.size → p ≠ k → priorityAt h (p / 2) ≤ priorityAt h p

/-- Heap order on every live edge except those from k down to its children. -/
def heapOrderExceptChildren (h : MinHeap) (k : Int) : Prop :=
  ∀ p : Int, 1 < p → p ≤ h.size → p / 2 ≠ k → priorityAt h (p / 2) ≤ priorityAt h p

/-- The grandparent bound: the parent of k already bounds the children of
k, so that swapping k with its parent or with a child cannot break the
edge skipping over k. -/
def grandBound (h : MinHeap) (k : Int) : Prop :=
  ∀ p : Int, 1 < p → p ≤ h.size → p / 2 = k → 1 < k →
    priorityAt h (k / 2) ≤ priorityAt h p

theorem isValidIndex_eq_true {h : MinHeap} {i : Int} :
    isValidIndex h i = true ↔ 1 ≤ i ∧ i ≤ h.size := by
  simp [isValidIndex, ROOT_INDEX]

theorem updateFn_apply {α : Type} (f : Int → α) (a : Int) (v : α) (x : Int) :
    updateFn f a v x = if x = a then v else f x := rfl

theorem swap_size (h : MinHeap) (i j : Int) : (swap h i j).size = h.size := by
  unfold swap
  split <;> rfl

theorem swap_capacity (h : MinHeap) (i j : Int) :
    (swap h i j).capacity = h.capacity := by
  unfold swap
  split <;> rfl

theorem swap_cond (h : MinHeap) {i j : Int}
    (hi1 : 1 ≤ i) (hi2 : i ≤ h.size) (hj1 : 1 ≤ j) (hj2 : j ≤ h.size) :
    (isValidIndex h i && isValidIndex h j) = true := by
  simp only [Bool.and_eq_true, isValidIndex_eq_true]
  omega

theorem swap_arr (h : MinHeap) {i j : Int}
    (hi1 : 1 ≤ i) (hi2 : i ≤ h.size) (hj1 : 1 ≤ j) (hj2 : j ≤ h.size) (p : Int) :
    (swap h i j).arr p =
      if p = j then h.arr i else if p = i then h.arr j else h.arr p := by
  unfold swap
  rw [if_pos (swap_cond h hi1 hi2 hj1 hj2)]
  by_cases hpj : p = j <;> by_cases hpi : p = i <;>
    simp [updateFn_apply, nodeAt, hpj, hpi]

theorem swap_indexMap (h : MinHeap) {i j : Int}
    (hi1 : 1 ≤ i) (hi2 : i ≤ h.size) (hj1 : 1 ≤ j) (hj2 : j ≤ h.size) (x : Int) :
    (swap h i j).indexMap x =
      if x = idAt h j then i else if x = idAt h i then j else h.indexMap x := by
  unfold swap
  rw [if_pos (swap_cond h hi1 hi2 hj1 hj2)]
  by_cases hxj : x = idAt h j <;> by_cases hxi : x = idAt h i <;>
    simp [updateFn_apply, idAt, hxj, hxi]

theorem swap_invalid (h : MinHeap) {i j : Int}
    (hbad : ¬ (1 ≤ i ∧ i ≤ h.size ∧ 1 ≤ j ∧ j ≤ h.size)) : swap h i j = h := by
  unfold swap
  rw [if_neg]
  simp only [Bool.and_eq_true, isValidIndex_eq_true]
  omega

theorem uniq_of_indexConsistent {h : MinHeap} (hic : indexConsistent h)
    {p q : Int} (hp1 : 1 ≤ p) (hp2 : p ≤ h.size) (hq1 : 1 ≤ q) (hq2 : q ≤ h.size)
    (he : idAt h p = idAt h q) : p = q := by
  have h1 := hic p hp1 hp2
  have h2 := hic q hq1 hq2
  rw [he] at h1
  omega

theorem swap_indexConsistent {h : MinHeap} (hic : indexConsistent h)
    {i j : Int} (hi1 : 1 ≤ i) (hi2 : i ≤ h.size) (hj1 : 1 ≤ j) (hj2 : j ≤ h.size) :
    indexConsistent (swap h i j) := by
  intro p hp1 hp2
  rw [swap_size] at hp2
  have harr := swap_arr h hi1 hi2 hj1 hj2 p
  by_cases hpj : p = j
  · have hid : idAt (swap h i j) p = idAt h i := by
      simp only [idAt]
      rw [harr, if_pos hpj]
    rw [hid, swap_indexMap h hi1 hi2 hj1 hj2 (idAt h i)]
    by_cases hij : idAt h i = idAt h j
    · have hij2 : i = j := uniq_of_indexConsistent hic hi1 hi2 hj1 hj2 hij
      rw [if_pos hij]
      omega
    · rw [if_neg hij, if_pos rfl]
      omega
  · by_cases hpi : p = i
    · have hid : idAt (swap h i j) p = idAt h j := by
        simp only [idAt]
        rw [harr, if_neg hpj, if_pos hpi]
      rw [hid, swap_indexMap h hi1 hi2 hj1 hj2 (idAt h j), if_pos rfl]
      omega
    · have hid : idAt (swap h i j) p = idAt h p := by
        simp only [idAt]
        rw [harr, if_neg hpj, if_neg hpi]
      have hne1 : idAt h p ≠ idAt h j := by
        intro he
        exact hpj (uniq_of_indexConsistent hic hp1 hp2 hj1 hj2 he)
      have hne2 : idAt h p ≠ idAt h i := by
        intro he
        exact hpi (uniq_of_indexConsistent hic hp1 hp2 hi1 hi2 he)
      rw [hid, swap_indexMap h hi1 hi2 hj1 hj2 (idAt h p), if_neg hne1,
        if_neg hne2]
      exact hic p hp1 hp2

/-- The frame facts carried through every sift: size and capacity are
unchanged, every live node of the result already lived in the argument,
and the index map entry of any identifier that lives nowhere in the
argument is untouched. -/
def Preserves (h r : MinHeap) : Prop :=
  r.size = h.size ∧ r.capacity = h.capacity ∧
  (∀ q : Int, 1 ≤ q → q ≤ r.size →
    ∃ q0 : Int, 1 ≤ q0 ∧ q0 ≤ h.size ∧ r.arr q = h.arr q0) ∧
  (∀ x : Int, LiveIdAbsent h x → r.indexMap x = h.indexMap x)

theorem preserves_refl (h : MinHeap) : Preserves h h := by
  refine ⟨rfl, rfl, fun q hq1 hq2 => ⟨q, hq1, hq2, rfl⟩, fun x _ => rfl⟩

theorem liveIdAbsent_of_preserves {h r : MinHeap} (hp : Preserves h r)
    {x : Int} (ha : LiveIdAbsent h x) : LiveIdAbsent r x := by
  intro q hq1 hq2
  obtain ⟨q0, hq01, hq02, he⟩ := hp.2.2.1 q hq1 hq2
  simp only [idAt, he]
  exact ha q0 hq01 hq02

theorem preserves_trans {h1 h2 h3 : MinHeap}
    (p12 : Preserves h1 h2) (p23 : Preserves h2 h3) : Preserves h1 h3 := by
  obtain ⟨hs12, hc12, hl12, hm12⟩ := p12
  obtain ⟨hs23, hc23, hl23, hm23⟩ := p23
  refine ⟨hs23.trans hs12, hc23.trans hc12, ?_, ?_⟩
  · intro q hq1 hq2
    obtain ⟨q1, hq11, hq12, he1⟩ := hl23 q hq1 hq2
    obtain ⟨q0, hq01, hq02, he0⟩ := hl12 q1 hq11 hq12
    exact ⟨q0, hq01, hq02, he1.trans he0⟩
  · intro x ha
    rw [hm23 x (liveIdAbsent_of_preserves ⟨hs12, hc12, hl12, hm12⟩ ha)]
    exact hm12 x ha

theorem swap_preserves (h : MinHeap) (i j : Int) : Preserves h (swap h i j) := by
  by_cases hval : 1 ≤ i ∧ i ≤ h.size ∧ 1 ≤ j ∧ j ≤ h.size
  · obtain ⟨hi1, hi2, hj1, hj2⟩ := hval
    refine ⟨swap_size h i j, swap_capacity h i j, ?_, ?_⟩
    · intro q hq1 hq2
      rw [swap_size] at hq2
      rw [swap_arr h hi1 hi2 hj1 hj2 q]
      by_cases hqj : q = j
      · exact ⟨i, hi1, hi2, by rw [if_pos hqj]⟩
      · by_cases hqi : q = i
        · exact ⟨j, hj1, hj2, by rw [if_neg hqj, if_pos hqi]⟩
        · exact ⟨q, hq1, hq2, by rw [if_neg hqj, if_neg hqi]⟩
    · intro x ha
      rw [swap_indexMap h hi1 hi2 hj1 hj2 x]
      rw [if_neg, if_neg]
      · exact fun he => ha i hi1 hi2 he.symm
      · exact fun he => ha j hj1 hj2 he.symm
  · rw [swap_invalid h hval]
    exact preserves_refl h

theorem swap_priorityAt (h : MinHeap) {i j : Int}
    (hi1 : 1 ≤ i) (hi2 : i ≤ h.size) (hj1 : 1 ≤ j) (hj2 : j ≤ h.size) (p : Int) :
    priorityAt (swap h i j) p =
      if p = j then priorityAt h i
      else if p = i then priorityAt h j
      else priorityAt h p := by
  simp only [priorityAt]
  rw [swap_arr h hi1 hi2 hj1 hj2 p]
  split_ifs <;> rfl

theorem swap_idAt (h : MinHeap) {i j : Int}
    (hi1 : 1 ≤ i) (hi2 : i ≤ h.size) (hj1 : 1 ≤ j) (hj2 : j ≤ h.size) (p : Int) :
    idAt (swap h i j) p =
      if p = j then idAt h i
      else if p = i then idAt h j
      else idAt h p := by
  simp only [idAt]
  rw [swap_arr h hi1 hi2 hj1 hj2 p]
  split_ifs <;> rfl

theorem parentIdx_eq (h : MinHeap) (k : Int) :
    parentIdx h k =
      if k = 1 ∨ ¬ (1 ≤ k ∧ k ≤ h.size) then NOTHING else k / 2 := by
  unfold parentIdx
  by_cases h1 : k = 1 <;> by_cases h2 : 1 ≤ k ∧ k ≤ h.size <;>
    simp [isValidIndex_eq_true, h1, h2]

theorem leftIdx_eq (h : MinHeap) (k : Int) :
    leftIdx h k =
      if 1 ≤ k ∧ k ≤ h.size ∧ 2 * k ≤ h.size then 2 * k else NOTHING := by
  unfold leftIdx
  by_cases h1 : 1 ≤ k ∧ k ≤ h.size
  · by_cases h2 : 2 * k ≤ h.size
    · have hv : isValidIndex h (2 * k) = true := by
        rw [isValidIndex_eq_true]
        omega
      simp [isValidIndex_eq_true, h1, h2, hv]
    · have hv : ¬ isValidIndex h (2 * k) = true := by
        rw [isValidIndex_eq_true]
        omega
      simp [isValidIndex_eq_true, h1, h2, hv]
  · have hv0 : isValidIndex h k = false := by
      rw [← Bool.not_eq_true, isValidIndex_eq_true]
      exact h1
    rw [if_pos (by rw [hv0]; rfl : (!(isValidIndex h k)) = true),
      if_neg (fun hc => h1 ⟨hc.1, hc.2.1⟩)]

theorem rightIdx_eq (h : MinHeap) (k : Int) :
    rightIdx h k =
      if 1 ≤ k ∧ k ≤ h.size ∧ 2 * k + 1 ≤ h.size then 2 * k + 1 else NOTHING := by
  unfold rightIdx
  by_cases h1 : 1 ≤ k ∧ k ≤ h.size
  · by_cases h2 : 2 * k + 1 ≤ h.size
    · have hv : isValidIndex h (2 * k + 1) = true := by
        rw [isValidIndex_eq_true]
        omega
      simp [isValidIndex_eq_true, h1, h2, hv]
    · have hv : ¬ isValidIndex h (2 * k + 1) = true := by
        rw [isValidIndex_eq_true]
        omega
      simp [isValidIndex_eq_true, h1, h2, hv]
  · have hv0 : isValidIndex h k = false := by
      rw [← Bool.not_eq_true, isValidIndex_eq_true]
      exact h1
    rw [if_pos (by rw [hv0]; rfl : (!(isValidIndex h k)) = true),
      if_neg (fun hc => h1 ⟨hc.1, hc.2.1⟩)]

/-- After one promoting swap of sift-up at position k, the heap is ordered
except at the parent position k / 2, and the grandparent bound moves up
with it. -/
theorem bubbleUp_step {h : MinHeap} {k : Int}
    (hk2 : 2 ≤ k) (hks : k ≤ h.size)
    (hex : heapOrderExceptAt h k) (hgb : grandBound h k)
    (hlt : priorityAt h k < priorityAt h (k / 2)) :
    heapOrderExceptAt (swap h (k / 2) k) (k / 2) ∧
      grandBound (swap h (k / 2) k) (k / 2) := by
  have hj1 : 1 ≤ k / 2 := by omega
  have hj2 : k / 2 ≤ h.size := by omega
  have hk1 : (1:Int) ≤ k := by omega
  have hpr := swap_priorityAt h hj1 hj2 hk1 hks
  constructor
  · intro p hp1 hp2 hpj
    rw [swap_size] at hp2
    by_cases hpk : p = k
    · subst hpk
      rw [hpr (p / 2), hpr p, if_pos rfl, if_neg (by omega : ¬ p / 2 = p),
        if_pos rfl]
      omega
    · by_cases hpc : p / 2 = k
      · rw [hpr (p / 2), if_pos hpc, hpr p, if_neg hpk,
          if_neg (by omega : ¬ p = k / 2)]
        exact hgb p hp1 hp2 hpc (by omega)
      · by_cases hpc2 : p / 2 = k / 2
        · rw [hpr (p / 2), if_neg hpc, if_pos hpc2, hpr p, if_neg hpk,
            if_neg hpj]
          have h1 := hex p hp1 hp2 hpk
          rw [hpc2] at h1
          omega
        · rw [hpr (p / 2), if_neg hpc, if_neg hpc2, hpr p, if_neg hpk,
            if_neg hpj]
          exact hex p hp1 hp2 hpk
  · intro p hp1 hp2 hpc hgt
    rw [swap_size] at hp2
    have hLHS : ¬ k / 2 / 2 = k := by omega
    have hLHS2 : ¬ k / 2 / 2 = k / 2 := by omega
    rw [hpr (k / 2 / 2), if_neg hLHS, if_neg hLHS2]
    by_cases hpk : p = k
    · subst hpk
      rw [hpr p, if_pos rfl]
      exact hex (p / 2) (by omega) (by omega) (by omega)
    · rw [hpr p, if_neg hpk, if_neg (by omega : ¬ p = k / 2)]
      have h1 := hex (k / 2) (by omega) (by omega) (by omega)
      have h2 := hex p hp1 hp2 hpk
      rw [hpc] at h2
      omega

/-- Sift-up restores full heap order, keeps the index map consistent and
preserves the frame, provided the fuel is at least the start position. -/
theorem bubbleUpAux_spec (fuel : Nat) :
    ∀ (h : MinHeap) (k : Int), indexConsistent h → heapOrderExceptAt h k →
      grandBound h k → k.toNat ≤ fuel →
      heapOrder (bubbleUpAux h k fuel) ∧ indexConsistent (bubbleUpAux h k fuel) ∧
      Preserves h (bubbleUpAux h k fuel) := by
  induction fuel with
  | zero =>
    intro h k hic hex hgb hfuel
    simp only [bubbleUpAux]
    refine ⟨?_, hic, preserves_refl h⟩
    intro p hp1 hp2
    exact hex p hp1 hp2 (by omega)
  | succ fuel ih =>
    intro h k hic hex hgb hfuel
    simp only [bubbleUpAux]
    by_cases hsz : h.size = 0
    · rw [if_pos hsz]
      refine ⟨?_, hic, preserves_refl h⟩
      intro p hp1 hp2
      omega
    rw [if_neg hsz, parentIdx_eq h k]
    by_cases hpar : k = 1 ∨ ¬ (1 ≤ k ∧ k ≤ h.size)
    · rw [if_pos hpar, if_pos rfl]
      refine ⟨?_, hic, preserves_refl h⟩
      intro p hp1 hp2
      rcases hpar with h1 | h1
      · exact hex p hp1 hp2 (by omega)
      · exact hex p hp1 hp2 (by omega)
    · rw [if_neg hpar]
      have hk2 : 2 ≤ k := by omega
      have hks : k ≤ h.size := by omega
      rw [if_neg (show ¬ (k / 2 = NOTHING) by simp only [NOTHING]; omega)]
      by_cases hgt : priorityAt h (k / 2) > priorityAt h k
      · rw [if_pos hgt]
        have harg : indexOf (swap h (k / 2) k) (idAt h k) = k / 2 := by
          simp only [indexOf]
          rw [swap_indexMap h (by omega) (by omega) (by omega) hks (idAt h k),
            if_pos rfl]
        rw [harg]
        have hstep := bubbleUp_step hk2 hks hex hgb hgt
        have hic2 := @swap_indexConsistent h hic (k / 2) k (by omega) (by omega)
          (by omega) hks
        have hrec := ih (swap h (k / 2) k) (k / 2) hic2 hstep.1 hstep.2 (by omega)
        exact ⟨hrec.1, hrec.2.1,
          preserves_trans (swap_preserves h (k / 2) k) hrec.2.2⟩
      · rw [if_neg hgt]
        refine ⟨?_, hic, preserves_refl h⟩
        intro p hp1 hp2
        by_cases hpk : p = k
        · rw [hpk]
          omega
        · exact hex p hp1 hp2 hpk

/-- bubbleUp called on a heap ordered except at k restores full heap
order, keeps index consistency and preserves the frame. -/
theorem bubbleUp_spec {h : MinHeap} {k : Int} (hic : indexConsistent h)
    (hex : heapOrderExceptAt h k) (hgb : grandBound h k) :
    heapOrder (bubbleUp h k) ∧ indexConsistent (bubbleUp h k) ∧
    Preserves h (bubbleUp h k) :=
  bubbleUpAux_spec k.toNat h k hic hex hgb le_rfl

/-- After one demoting swap of sift-down from position k to the chosen
child c, the heap is ordered except below c, and the grandparent bound
moves down with it. -/
theorem bubbleDown_step {h : MinHeap} {k c : Int}
    (hic : indexConsistent h)
    (hk1 : 1 ≤ k) (hc : c = 2 * k ∨ c = 2 * k + 1) (hcs : c ≤ h.size)
    (hother : ∀ c2 : Int, (c2 = 2 * k ∨ c2 = 2 * k + 1) → c2 ≤ h.size →
      priorityAt h c ≤ priorityAt h c2)
    (hlt : priorityAt h c < priorityAt h k)
    (hex : heapOrderExceptChildren h k) (hgb : grandBound h k) :
    heapOrderExceptChildren (swap h k c) c ∧ grandBound (swap h k c) c := by
  have hkc : k < c := by omega
  have hc1 : (1:Int) ≤ c := by omega
  have hks : k ≤ h.size := by omega
  have hpr := swap_priorityAt h hk1 hks hc1 hcs
  constructor
  · intro p hp1 hp2 hpc
    rw [swap_size] at hp2
    by_cases hpkc : p = c
    · rw [hpkc, (show c / 2 = k by omega), hpr k, hpr c, if_pos rfl,
        if_neg (by omega : ¬ k = c), if_pos rfl]
      omega
    · by_cases hpk : p = k
      · rw [hpk, hpr (k / 2), hpr k,
          if_neg (by omega : ¬ k / 2 = c), if_neg (by omega : ¬ k / 2 = k),
          if_neg (by omega : ¬ k = c), if_pos rfl]
        exact hgb c (by omega) hcs (by omega) (by omega)
      · by_cases hpck : p / 2 = k
        · rw [hpr (p / 2), hpr p, hpck, if_neg (by omega : ¬ k = c), if_pos rfl,
            if_neg hpkc, if_neg hpk]
          exact hother p (by omega) hp2
        · rw [hpr (p / 2), hpr p, if_neg hpc, if_neg hpck, if_neg hpkc,
            if_neg hpk]
          exact hex p hp1 hp2 hpck
  · intro p hp1 hp2 hpc hgt
    rw [swap_size] at hp2
    have hpc2 : ¬ p / 2 = k := by omega
    rw [(show c / 2 = k by omega), hpr k, hpr p,
      if_neg (by omega : ¬ k = c), if_pos rfl,
      if_neg (by omega : ¬ p = c), if_neg (by omega : ¬ p = k)]
    have h2 := hex p hp1 hp2 hpc2
    rw [hpc] at h2
    exact h2

/-- The sift-down loop restores full heap order, keeps the index map
consistent and preserves the frame, when started at the tracked position k
of the identifier id with enough fuel. -/
theorem bubbleDownAux_spec (fuel : Nat) :
    ∀ (h : MinHeap) (id k : Int),
      indexConsistent h → 1 ≤ k → k ≤ h.size →
      h.indexMap id = k → idAt h k = id →
      heapOrderExceptChildren h k → grandBound h k →
      h.size.toNat < fuel + k.toNat →
      heapOrder (bubbleDownAux h id (leftIdx h k) (rightIdx h k) fuel) ∧
      indexConsistent (bubbleDownAux h id (leftIdx h k) (rightIdx h k) fuel) ∧
      Preserves h (bubbleDownAux h id (leftIdx h k) (rightIdx h k) fuel) := by
  induction fuel with
  | zero =>
    intro h id k hic hk1 hks hmap hid hex hgb hfuel
    exfalso
    omega
  | succ fuel ih =>
    intro h id k hic hk1 hks hmap hid hex hgb hfuel
    have hio : indexOf h id = k := hmap
    rw [leftIdx_eq h k, rightIdx_eq h k]
    by_cases hl : 2 * k ≤ h.size
    · rw [if_pos (⟨hk1, hks, hl⟩ : 1 ≤ k ∧ k ≤ h.size ∧ 2 * k ≤ h.size)]
      have key : ∀ c : Int, (c = 2 * k ∨ c = 2 * k + 1) → c ≤ h.size →
          (∀ c2 : Int, (c2 = 2 * k ∨ c2 = 2 * k + 1) → c2 ≤ h.size →
            priorityAt h c ≤ priorityAt h c2) →
          priorityAt h c < priorityAt h k →
          heapOrder (bubbleDownAux (swap h k c) id
            (leftIdx (swap h k c) (indexOf (swap h k c) id))
            (rightIdx (swap h k c) (indexOf (swap h k c) id)) fuel) ∧
          indexConsistent (bubbleDownAux (swap h k c) id
            (leftIdx (swap h k c) (indexOf (swap h k c) id))
            (rightIdx (swap h k c) (indexOf (swap h k c) id)) fuel) ∧
          Preserves h (bubbleDownAux (swap h k c) id
            (leftIdx (swap h k c) (indexOf (swap h k c) id))
            (rightIdx (swap h k c) (indexOf (swap h k c) id)) fuel) := by
        intro c hc hcs hother hlt
        have hc1 : (1:Int) ≤ c := by omega
        have hkc : k < c := by omega
        have hneid : idAt h c ≠ id := by
          intro he
          have : c = k :=
            uniq_of_indexConsistent hic hc1 hcs hk1 hks (he.trans hid.symm)
          omega
        have harg : indexOf (swap h k c) id = c := by
          simp only [indexOf]
          rw [swap_indexMap h hk1 hks hc1 hcs id,
            if_neg (fun he => hneid he.symm), if_pos hid.symm]
        rw [harg]
        have hstep := bubbleDown_step hic hk1 hc hcs hother hlt hex hgb
        have hic2 := @swap_indexConsistent h hic k c hk1 hks hc1 hcs
        have hid2 : idAt (swap h k c) c = id := by
          rw [swap_idAt h hk1 hks hc1 hcs c, if_pos rfl]
          exact hid
        have hsz2 := swap_size h k c
        have hrec := ih (swap h k c) id c hic2 hc1 (by omega) harg hid2
          hstep.1 hstep.2 (by rw [hsz2]; omega)
        exact ⟨hrec.1, hrec.2.1,
          preserves_trans (swap_preserves h k c) hrec.2.2⟩
      by_cases hr : 2 * k + 1 ≤ h.size
      · rw [if_pos (⟨hk1, hks, hr⟩ : 1 ≤ k ∧ k ≤ h.size ∧ 2 * k + 1 ≤ h.size)]
        simp only [bubbleDownAux]
        rw [if_neg (show ¬ (2 * k : Int) = NOTHING by simp only [NOTHING]; omega)]
        rw [hio]
        rw [if_neg (show ¬ (2 * k + 1 : Int) = NOTHING by
          simp only [NOTHING]; omega)]
        simp only [Bool.and_eq_true, decide_eq_true_eq]
        by_cases h12 : priorityAt h k > priorityAt h (2 * k) ∧
            priorityAt h k > priorityAt h (2 * k + 1)
        · rw [if_pos h12]
          by_cases hlr : priorityAt h (2 * k) < priorityAt h (2 * k + 1)
          · rw [if_pos hlr]
            refine key (2 * k) (Or.inl rfl) hl ?_ h12.1
            intro c2 hc2 hc2s
            rcases hc2 with e | e <;> rw [e] <;> omega
          · rw [if_neg hlr]
            refine key (2 * k + 1) (Or.inr rfl) hr ?_ h12.2
            intro c2 hc2 hc2s
            rcases hc2 with e | e <;> rw [e] <;> omega
        · rw [if_neg h12]
          by_cases hgl : priorityAt h k > priorityAt h (2 * k)
          · rw [if_pos hgl]
            have hbr : ¬ priorityAt h k > priorityAt h (2 * k + 1) :=
              fun hb => h12 ⟨hgl, hb⟩
            refine key (2 * k) (Or.inl rfl) hl ?_ hgl
            intro c2 hc2 hc2s
            rcases hc2 with e | e <;> rw [e] <;> omega
          · rw [if_neg hgl]
            by_cases hgr : priorityAt h k > priorityAt h (2 * k + 1)
            · rw [if_pos hgr]
              refine key (2 * k + 1) (Or.inr rfl) hr ?_ hgr
              intro c2 hc2 hc2s
              rcases hc2 with e | e <;> rw [e] <;> omega
            · rw [if_neg hgr]
              refine ⟨?_, hic, preserves_refl h⟩
              intro p hp1 hp2
              by_cases hpk : p / 2 = k
              · have he : p = 2 * k ∨ p = 2 * k + 1 := by omega
                rw [hpk]
                rcases he with he | he <;> rw [he] <;> omega
              · exact hex p hp1 hp2 hpk
      · rw [if_neg (fun hcond => hr hcond.2.2)]
        simp only [bubbleDownAux]
        rw [if_neg (show ¬ (2 * k : Int) = NOTHING by simp only [NOTHING]; omega)]
        rw [hio]
        rw [if_pos trivial]
        by_cases hgt : priorityAt h k > priorityAt h (2 * k)
        · rw [if_pos hgt]
          refine key (2 * k) (Or.inl rfl) hl ?_ hgt
          intro c2 hc2 hc2s
          rcases hc2 with e | e
          · rw [e]
          · exfalso
            omega
        · rw [if_neg hgt]
          refine ⟨?_, hic, preserves_refl h⟩
          intro p hp1 hp2
          by_cases hpk : p / 2 = k
          · have hp2k : p = 2 * k := by omega
            rw [hpk, hp2k]
            omega
          · exact hex p hp1 hp2 hpk
    · rw [if_neg (fun hcond => hl hcond.2.2),
        if_neg (fun hcond => hl (by omega))]
      simp only [bubbleDownAux]
      rw [if_pos trivial]
      refine ⟨?_, hic, preserves_refl h⟩
      intro p hp1 hp2
      exact hex p hp1 hp2 (by omega)

/-- grandBound is vacuous at the root. -/
theorem grandBound_one (h : MinHeap) : grandBound h 1 := by
  intro p hp1 hp2 hpc hgt
  omega

/-- bubbleDown on a heap ordered except below the root restores full heap
order, keeps index consistency and preserves the frame. -/
theorem bubbleDown_spec {h : MinHeap} (hic : indexConsistent h)
    (hex : heapOrderExceptChildren h 1) :
    heapOrder (bubbleDown h) ∧ indexConsistent (bubbleDown h) ∧
    Preserves h (bubbleDown h) := by
  unfold bubbleDown
  by_cases hsz : h.size > 0
  · rw [if_pos hsz]
    have hmap : h.indexMap (idAt h ROOT_INDEX) = 1 := hic 1 le_rfl hsz
    exact bubbleDownAux_spec h.size.toNat h (idAt h ROOT_INDEX) 1 hic le_rfl
      hsz hmap rfl hex (grandBound_one h) (by omega)
  · rw [if_neg hsz]
    refine ⟨?_, hic, preserves_refl h⟩
    intro p hp1 hp2
    omega

theorem updateFn_same {α : Type} (f : Int → α) (a : Int) (v : α) :
    updateFn f a v a = v := by
  simp [updateFn]

theorem updateFn_other {α : Type} (f : Int → α) (a : Int) (v : α) (x : Int)
    (hx : x ≠ a) : updateFn f a v x = f x := by
  simp [updateFn, hx]

/-- The heap state insert builds with its three writes, before the
bubbleUp call. -/
def insertPre (heap : MinHeap) (priority id : Int) : MinHeap :=
  { heap with
    arr := updateFn heap.arr (heap.size + 1) ⟨priority, id⟩,
    indexMap := updateFn heap.indexMap id (heap.size + 1),
    size := heap.size + 1 }

theorem insert_eq (heap : MinHeap) (priority id : Int) :
    insert heap priority id = bubbleUp (insertPre heap priority id) (heap.size + 1) :=
  rfl

theorem insertPre_indexConsistent (h : MinHeap) (priority id : Int)
    (hic : indexConsistent h) (habs : LiveIdAbsent h id) :
    indexConsistent (insertPre h priority id) := by
  intro p hp1 hp2
  have hp2 : p ≤ h.size + 1 := hp2
  by_cases hp : p = h.size + 1
  · have hidp : idAt (insertPre h priority id) p = id := by
      simp only [insertPre, idAt, updateFn]
      rw [if_pos hp]
    rw [hidp]
    show updateFn h.indexMap id (h.size + 1) id = p
    rw [updateFn_same]
    omega
  · have hidp : idAt (insertPre h priority id) p = idAt h p := by
      simp only [insertPre, idAt, updateFn]
      rw [if_neg hp]
    rw [hidp]
    show updateFn h.indexMap id (h.size + 1) (idAt h p) = p
    rw [updateFn_other _ _ _ _ (habs p hp1 (by omega))]
    exact hic p hp1 (by omega)

theorem insertPre_order (h : MinHeap) (priority id : Int) (ho : heapOrder h)
    (hsz : 0 ≤ h.size) :
    heapOrderExceptAt (insertPre h priority id) (h.size + 1) := by
  intro p hp1 hp2 hpne
  have hp2 : p ≤ h.size + 1 := hp2
  have e1 : priorityAt (insertPre h priority id) p = priorityAt h p := by
    simp only [insertPre, priorityAt, updateFn]
    rw [if_neg hpne]
  have e2 : priorityAt (insertPre h priority id) (p / 2) = priorityAt h (p / 2) := by
    simp only [insertPre, priorityAt, updateFn]
    rw [if_neg (by omega : ¬ p / 2 = h.size + 1)]
  rw [e1, e2]
  exact ho p hp1 (by omega)

theorem insertPre_grandBound (h : MinHeap) (priority id : Int) :
    grandBound (insertPre h priority id) (h.size + 1) := by
  intro p hp1 hp2 hpc hgt
  have hp2 : p ≤ h.size + 1 := hp2
  exfalso
  omega

/-- insert with its preconditions keeps heap order and index consistency,
grows the size by one, keeps the capacity, and does not resurrect absent
identifiers other than the inserted one. -/
theorem insert_spec (h : MinHeap) (priority id : Int)
    (ho : heapOrder h) (hic : indexConsistent h) (hsz : 0 ≤ h.size)
    (habs : LiveIdAbsent h id) :
    heapOrder (insert h priority id) ∧ indexConsistent (insert h priority id) ∧
    (insert h priority id).size = h.size + 1 ∧
    (insert h priority id).capacity = h.capacity ∧
    (∀ x : Int, LiveIdAbsent h x → x ≠ id →
      LiveIdAbsent (insert h priority id) x) := by
  rw [insert_eq]
  have hic1 := insertPre_indexConsistent h priority id hic habs
  have hex1 := insertPre_order h priority id ho hsz
  have hgb1 := insertPre_grandBound h priority id
  obtain ⟨k1, k2, k3⟩ := bubbleUp_spec hic1 hex1 hgb1
  refine ⟨k1, k2, k3.1, k3.2.1, ?_⟩
  intro x hax hxid
  apply liveIdAbsent_of_preserves k3
  intro q hq1 hq2
  have hq2 : q ≤ h.size + 1 := hq2
  by_cases hq : q = h.size + 1
  · have : idAt (insertPre h priority id) q = id := by
      simp only [insertPre, idAt, updateFn]
      rw [if_pos hq]
    rw [this]
    exact fun he => hxid he.symm
  · have : idAt (insertPre h priority id) q = idAt h q := by
      simp only [insertPre, idAt, updateFn]
      rw [if_neg hq]
    rw [this]
    exact hax q hq1 (by omega)

/-- On a heap in order, the root has the minimum priority among all live
positions. -/
theorem root_min_aux {h : MinHeap} (ho : heapOrder h) :
    ∀ n : Nat, ∀ p : Int, p.toNat ≤ n → 1 ≤ p → p ≤ h.size →
      priorityAt h 1 ≤ priorityAt h p := by
  intro n
  induction n with
  | zero =>
    intro p h0 h1 h2
    exfalso
    omega
  | succ n ihn =>
    intro p h0 h1 h2
    by_cases hp1 : p = 1
    · rw [hp1]
    · have hstep := ho p (by omega) h2
      have hup := ihn (p / 2) (by omega) (by omega) (by omega)
      omega

theorem root_min {h : MinHeap} (ho : heapOrder h) :
    ∀ p : Int, 1 ≤ p → p ≤ h.size → priorityAt h 1 ≤ priorityAt h p :=
  fun p hp1 hp2 => root_min_aux ho p.toNat p le_rfl hp1 hp2

/-- The heap state extractMin builds before the bubbleDown call: root and
last node swapped, the index map entry of the saved identifier zeroed, and
the size decremented. -/
def extractPre (heap : MinHeap) : MinHeap :=
  { swap heap ROOT_INDEX heap.size with
    indexMap := updateFn (swap heap ROOT_INDEX heap.size).indexMap
      (idAt (swap heap ROOT_INDEX heap.size) (swap heap ROOT_INDEX heap.size).size) 0,
    size := (swap heap ROOT_INDEX heap.size).size - 1 }

theorem extractMin_eq (heap : MinHeap) :
    extractMin heap = (bubbleDown (extractPre heap),
      nodeAt (swap heap ROOT_INDEX heap.size) (swap heap ROOT_INDEX heap.size).size) :=
  rfl

/-- extractMin on a non-empty heap with the invariants returns the node
that was at the root, keeps heap order and index consistency, shrinks the
size by one, keeps the capacity, zeroes the index map entry of the removed
identifier, and every remaining live node was live before. -/
theorem extract_spec (h : MinHeap)
    (ho : heapOrder h) (hic : indexConsistent h) (hsz : 1 ≤ h.size) :
    (extractMin h).2 = h.arr 1 ∧
    heapOrder (extractMin h).1 ∧ indexConsistent (extractMin h).1 ∧
    (extractMin h).1.size = h.size - 1 ∧
    (extractMin h).1.capacity = h.capacity ∧
    (extractMin h).1.indexMap ((h.arr 1).id) = 0 ∧
    (∀ q : Int, 1 ≤ q → q ≤ h.size - 1 →
      ∃ q0 : Int, 1 ≤ q0 ∧ q0 ≤ h.size ∧ (extractMin h).1.arr q = h.arr q0) := by
  have hswap_arr := @swap_arr h 1 h.size le_rfl hsz hsz le_rfl
  have hswap_size := swap_size h 1 h.size
  have hic1 := @swap_indexConsistent h hic 1 h.size le_rfl hsz hsz le_rfl
  have hpr1 := @swap_priorityAt h 1 h.size le_rfl hsz hsz le_rfl
  have hrid : idAt (swap h 1 h.size) h.size = (h.arr 1).id := by
    simp only [idAt]
    rw [hswap_arr h.size, if_pos rfl]
  have hE_size : (extractPre h).size = h.size - 1 := by
    show (swap h 1 h.size).size - 1 = h.size - 1
    rw [hswap_size]
  have hE_cap : (extractPre h).capacity = h.capacity := by
    show (swap h 1 h.size).capacity = h.capacity
    exact swap_capacity h 1 h.size
  have hE_map : (extractPre h).indexMap =
      updateFn (swap h 1 h.size).indexMap
        (idAt (swap h 1 h.size) ((swap h 1 h.size).size)) 0 := rfl
  have hicE : indexConsistent (extractPre h) := by
    intro p hp1 hp2
    rw [hE_size] at hp2
    have hidp : idAt (extractPre h) p = idAt (swap h 1 h.size) p := rfl
    rw [hidp, hE_map, hswap_size]
    have hne : idAt (swap h 1 h.size) p ≠ idAt (swap h 1 h.size) h.size := by
      intro he
      have hpe := uniq_of_indexConsistent hic1 hp1
        (show p ≤ (swap h 1 h.size).size by rw [hswap_size]; omega)
        hsz (show h.size ≤ (swap h 1 h.size).size by rw [hswap_size]) he
      omega
    rw [updateFn_other _ _ _ _ hne]
    exact hic1 p hp1 (by rw [hswap_size]; omega)
  have hexE : heapOrderExceptChildren (extractPre h) 1 := by
    intro p hp1 hp2 hpc
    rw [hE_size] at hp2
    have e1 : priorityAt (extractPre h) p = priorityAt h p := by
      show priorityAt (swap h 1 h.size) p = priorityAt h p
      rw [hpr1 p, if_neg (by omega : ¬ p = h.size), if_neg (by omega : ¬ p = 1)]
    have e2 : priorityAt (extractPre h) (p / 2) = priorityAt h (p / 2) := by
      show priorityAt (swap h 1 h.size) (p / 2) = priorityAt h (p / 2)
      rw [hpr1 (p / 2), if_neg (by omega : ¬ p / 2 = h.size), if_neg hpc]
    rw [e1, e2]
    exact ho p hp1 (by omega)
  have habsE : LiveIdAbsent (extractPre h) ((h.arr 1).id) := by
    intro q hq1 hq2
    rw [hE_size] at hq2
    show idAt (swap h 1 h.size) q ≠ (h.arr 1).id
    intro he
    have he2 : idAt (swap h 1 h.size) q = idAt (swap h 1 h.size) h.size := by
      rw [he, hrid]
    have hq := uniq_of_indexConsistent hic1 hq1
      (show q ≤ (swap h 1 h.size).size by rw [hswap_size]; omega)
      hsz (show h.size ≤ (swap h 1 h.size).size by rw [hswap_size]) he2
    omega
  obtain ⟨b1, b2, b3⟩ := bubbleDown_spec hicE hexE
  rw [extractMin_eq]
  refine ⟨?_, b1, b2, ?_, ?_, ?_, ?_⟩
  · show (swap h 1 h.size).arr ((swap h 1 h.size).size) = h.arr 1
    rw [hswap_size, hswap_arr h.size, if_pos rfl]
  · show (bubbleDown (extractPre h)).size = h.size - 1
    rw [b3.1, hE_size]
  · show (bubbleDown (extractPre h)).capacity = h.capacity
    rw [b3.2.1, hE_cap]
  · show (bubbleDown (extractPre h)).indexMap ((h.arr 1).id) = 0
    rw [b3.2.2.2 _ habsE, hE_map, hswap_size, hrid, updateFn_same]
  · intro q hq1 hq2
    obtain ⟨q0, hq01, hq02, he⟩ := b3.2.2.1 q hq1
      (show q ≤ (bubbleDown (extractPre h)).size by rw [b3.1, hE_size]; omega)
    rw [hE_size] at hq02
    have he2 : (extractPre h).arr q0 = (swap h 1 h.size).arr q0 := rfl
    rw [he2, hswap_arr q0, if_neg (by omega : ¬ q0 = h.size)] at he
    by_cases hq01b : q0 = 1
    · rw [if_pos hq01b] at he
      exact ⟨h.size, hsz, le_rfl, he⟩
    · rw [if_neg hq01b] at he
      exact ⟨q0, hq01, by omega, he⟩

/-- Every reachable heap satisfies heap order and index consistency and
has a non-negative size. -/
theorem invariants_of_reachable {h : MinHeap} (hr : Reachable h) :
    heapOrder h ∧ indexConsistent h ∧ 0 ≤ h.size := by
  induction hr with
  | init capacity arrInit mapInit =>
    refine ⟨?_, ?_, le_rfl⟩
    · intro p hp1 hp2
      have hp2 : p ≤ 0 := hp2
      omega
    · intro p hp1 hp2
      have hp2 : p ≤ 0 := hp2
      omega
  | step h op hr hpre ih =>
    obtain ⟨ho, hic, hsz⟩ := ih
    cases op with
    | insertOp priority id =>
      obtain ⟨habs, _, _, _⟩ := hpre
      obtain ⟨k1, k2, k3, _, _⟩ := insert_spec h priority id ho hic hsz habs
      exact ⟨k1, k2, by simp only [applyOp]; omega⟩
    | extractMinOp =>
      have hpos : 0 < h.size := hpre
      obtain ⟨_, k1, k2, k3, _, _, _⟩ := extract_spec h ho hic hpos
      exact ⟨k1, k2, by simp only [applyOp]; omega⟩
    | decreasePriorityOp id newPriority =>
      exact ⟨ho, hic, hsz⟩

/-- Repeated insertion of a list of (priority, identifier) pairs, first
element first. -/
def insertAll (heap : MinHeap) (l : List (Int × Int)) : MinHeap :=
  l.foldl (fun acc pr => insert acc pr.1 pr.2) heap

/-- n successive extractMin calls: the removed nodes in order of removal
together with the final heap. -/
def extractList : MinHeap → Nat → List HeapNode × MinHeap
  | heap, 0 => ([], heap)
  | heap, n + 1 =>
    let res := extractMin heap
    let rest := extractList res.1 n
    (res.2 :: rest.1, rest.2)

/-- insertAll of pairwise-distinct fresh identifiers keeps the invariants
and grows the size by the length of the list. -/
theorem insertAll_inv : ∀ (l : List (Int × Int)) (h : MinHeap),
    heapOrder h → indexConsistent h → 0 ≤ h.size →
    (∀ pr ∈ l, LiveIdAbsent h pr.2) →
    l.Pairwise (fun a b => a.2 ≠ b.2) →
    heapOrder (insertAll h l) ∧ indexConsistent (insertAll h l) ∧
    (insertAll h l).size = h.size + l.length := by
  intro l
  induction l with
  | nil =>
    intro h ho hic hsz habs hpw
    exact ⟨ho, hic, by simp [insertAll]⟩
  | cons pr l ihl =>
    intro h ho hic hsz habs hpw
    obtain ⟨k1, k2, k3, k4, k5⟩ := insert_spec h pr.1 pr.2 ho hic hsz
      (habs pr (List.mem_cons_self pr l))
    have habs2 : ∀ q ∈ l, LiveIdAbsent (insert h pr.1 pr.2) q.2 := by
      intro q hq
      refine k5 q.2 (habs q (List.mem_cons_of_mem pr hq)) ?_
      have hne := (List.pairwise_cons.mp hpw).1 q hq
      exact fun he => hne he.symm
    have hpw2 := (List.pairwise_cons.mp hpw).2
    have hrec := ihl (insert h pr.1 pr.2) k1 k2 (by omega) habs2 hpw2
    refine ⟨hrec.1, hrec.2.1, ?_⟩
    have hfold : insertAll h (pr :: l) = insertAll (insert h pr.1 pr.2) l := rfl
    rw [hfold, hrec.2.2, k3]
    simp only [List.length_cons]
    push_cast
    ring

/-- Extracting exactly size times from a heap with the invariants yields
nodes in non-decreasing priority order, each of them live in the starting
heap, and empties the heap. -/
theorem extractList_spec : ∀ (n : Nat) (h : MinHeap),
    heapOrder h → indexConsistent h → h.size = n →
    List.Pairwise (fun a b : HeapNode => a.priority ≤ b.priority)
      (extractList h n).1 ∧
    (extractList h n).2.size = 0 ∧
    (∀ x ∈ (extractList h n).1, ∃ q : Int, 1 ≤ q ∧ q ≤ h.size ∧ x = h.arr q) := by
  intro n
  induction n with
  | zero =>
    intro h ho hic hszn
    refine ⟨List.Pairwise.nil, hszn, ?_⟩
    intro x hx
    exact absurd hx (List.not_mem_nil x)
  | succ n ihn =>
    intro h ho hic hszn
    have hsz1 : 1 ≤ h.size := by omega
    obtain ⟨e1, e2, e3, e4, e5, e6, e7⟩ := extract_spec h ho hic hsz1
    have ih := ihn (extractMin h).1 e2 e3 (by omega)
    have hunf : extractList h (n + 1) =
        ((extractMin h).2 :: (extractList (extractMin h).1 n).1,
          (extractList (extractMin h).1 n).2) := rfl
    rw [hunf]
    refine ⟨?_, ih.2.1, ?_⟩
    · refine List.pairwise_cons.mpr ⟨?_, ih.1⟩
      intro x hx
      obtain ⟨q, hq1, hq2, hxq⟩ := ih.2.2 x hx
      obtain ⟨q0, hq01, hq02, he⟩ := e7 q hq1 (by omega)
      rw [e1, hxq, he]
      exact root_min ho q0 hq01 hq02
    · intro x hx
      rcases List.mem_cons.mp hx with he | hx2
      · exact ⟨1, le_rfl, hsz1, by rw [he, e1]⟩
      · obtain ⟨q, hq1, hq2, hxq⟩ := ih.2.2 x hx2
        obtain ⟨q0, hq01, hq02, he⟩ := e7 q hq1 (by omega)
        exact ⟨q0, hq01, hq02, by rw [hxq, he]⟩

/-- A fixed content standing for the indeterminate malloc contents of a
fresh heap array. -/
def zeroNode : HeapNode := ⟨0, 0⟩

/-- A fixed initial node array. -/
def zeroArr : Int → HeapNode := fun _ => zeroNode

/-- A fixed initial index map. -/
def zeroMap : Int → Int := fun _ => 0

/-- The heap of the decrease-then-extract scenario: identifier 0 with
priority 10 inserted first, identifier 1 with priority 20 second. -/
def heapC1 : MinHeap :=
  insertAll (newHeap 2 zeroArr zeroMap) [(10, 0), (20, 1)]

/-- The two-node heap reached by inserting priority 5 with identifier 0
and then priority 3 with identifier 1. -/
def heapC2w : MinHeap :=
  applyOp (applyOp (newHeap 2 zeroArr zeroMap) (Op.insertOp 5 0))
    (Op.insertOp 3 1)

theorem reachable_heapC2w : Reachable heapC2w := by
  refine Reachable.step _ _ (Reachable.step _ _
    (Reachable.init 2 zeroArr zeroMap) ?_) ?_
  · refine ⟨?_, by decide, by decide, by decide⟩
    intro q hq1 hq2
    exact absurd (hq1.trans hq2) (by decide)
  · refine ⟨?_, by decide, by decide, by decide⟩
    intro q hq1 hq2
    have hs : (applyOp (newHeap 2 zeroArr zeroMap) (Op.insertOp 5 0)).size = 1 := by
      decide
    have hq : q = 1 := by omega
    rw [hq]
    decide

/-- Claim C1: the spec requires decreasePriority, called after inserting
identifier 0 with priority 10 and identifier 1 with priority 20, with
identifier 1 and new priority 5, to update the priority, restore order and
return true, making getMin return identifier 1.  The source function is an
unimplemented stub whose body is return false, so it returns false,
changes nothing, and getMin still returns identifier 0.  This theorem
evaluates the code at that failing input. -/
theorem claim_C1_decreasePriority_stub :
    (decreasePriority heapC1 1 5).2 = false ∧
    (decreasePriority heapC1 1 5).1 = heapC1 ∧
    (getMin (decreasePriority heapC1 1 5).1).id = 0 ∧
    ¬ (getMin (decreasePriority heapC1 1 5).1).id = 1 := by
  refine ⟨rfl, rfl, by decide, by decide⟩

/-- Claim C2: heap-order invariant I1 — in every heap reached from a
fresh heap by insert, extractMin and decreasePriority operations whose
preconditions hold, every live position p with 1 < p and p at most size
has the priority at the parent position p / 2 at most its own priority. -/
theorem claim_C2_heap_order_invariant (h : MinHeap) (hr : Reachable h) :
    ∀ p : Int, 1 < p → p ≤ h.size →
      priorityAt h (p / 2) ≤ priorityAt h p :=
  (invariants_of_reachable hr).1

/-- Witness for claim C2 at the concrete reachable two-node heap. -/
theorem claim_C2_heap_order_invariant_witness :
    priorityAt heapC2w (2 / 2) ≤ priorityAt heapC2w 2 :=
  claim_C2_heap_order_invariant heapC2w reachable_heapC2w 2 (by decide)
    (by decide)

/-- Claim C3: index-consistency invariant I3 — in every heap reached from
a fresh heap by public operations whose preconditions hold, the index map
entry of the identifier stored at any live position p is p, and p is the
unique live position holding that identifier. -/
theorem claim_C3_index_consistency (h : MinHeap) (hr : Reachable h) :
    ∀ p : Int, 1 ≤ p → p ≤ h.size →
      h.indexMap (idAt h p) = p ∧
      (∀ q : Int, 1 ≤ q → q ≤ h.size → idAt h q = idAt h p → q = p) := by
  intro p hp1 hp2
  obtain ⟨ho, hic, hsz⟩ := invariants_of_reachable hr
  exact ⟨hic p hp1 hp2,
    fun q hq1 hq2 he => uniq_of_indexConsistent hic hq1 hq2 hp1 hp2 he⟩

/-- Witness for claim C3 at the concrete reachable two-node heap. -/
theorem claim_C3_index_consistency_witness :
    heapC2w.indexMap (idAt heapC2w 1) = 1 ∧
    (∀ q : Int, 1 ≤ q → q ≤ heapC2w.size →
      idAt heapC2w q = idAt heapC2w 1 → q = 1) :=
  claim_C3_index_consistency heapC2w reachable_heapC2w 1 le_rfl (by decide)

/-- The three-node heap with root priority 5 and two children of equal
priority 1: the tie case of sift-down. -/
def heapC4 : MinHeap :=
  { size := 3, capacity := 3,
    arr := fun p => if p = 1 then ⟨5, 0⟩ else if p = 2 then ⟨1, 1⟩
      else if p = 3 then ⟨1, 2⟩ else ⟨0, 0⟩,
    indexMap := fun i => if i = 0 then 1 else if i = 1 then 2
      else if i = 2 then 3 else 0 }

/-- Counterexample to claim C4: on the tie heap, sift-down swaps the root
with the right child (identifier 2, position 3), not the left child
(identifier 1, position 2): after bubbleDown the root holds identifier 2
and the demoted node sits at position 3, so the claimed left preference is
false. -/
theorem claim_C4_counterexample :
    idAt (bubbleDown heapC4) ROOT_INDEX = 2 ∧
    (bubbleDown heapC4).indexMap 0 = 3 ∧
    ¬ idAt (bubbleDown heapC4) ROOT_INDEX = 1 := by
  refine ⟨by decide, by decide, by decide⟩

/-- Claim C4 amended: in the two-children branch of sift-down with equal
child priorities both strictly below the node, the code compares
priorityLeft < priorityRight, which fails on a tie, so the node is swapped
with the right child. -/
theorem claim_C4_amended_tie_right (h : MinHeap) (id k : Int) (fuel : Nat)
    (hk1 : 1 ≤ k)
    (hmap : indexOf h id = k)
    (hleft : leftIdx h k = 2 * k) (hright : rightIdx h k = 2 * k + 1)
    (heq : priorityAt h (2 * k) = priorityAt h (2 * k + 1))
    (hlt : priorityAt h (2 * k) < priorityAt h k) :
    bubbleDownAux h id (leftIdx h k) (rightIdx h k) (fuel + 1) =
      bubbleDownAux (swap h k (2 * k + 1)) id
        (leftIdx (swap h k (2 * k + 1)) (indexOf (swap h k (2 * k + 1)) id))
        (rightIdx (swap h k (2 * k + 1)) (indexOf (swap h k (2 * k + 1)) id))
        fuel := by
  rw [hleft, hright]
  simp only [bubbleDownAux]
  rw [if_neg (show ¬ (2 * k : Int) = NOTHING by simp only [NOTHING]; omega)]
  rw [hmap]
  rw [if_neg (show ¬ (2 * k + 1 : Int) = NOTHING by simp only [NOTHING]; omega)]
  simp only [Bool.and_eq_true, decide_eq_true_eq]
  rw [if_pos ⟨by omega, by omega⟩]
  rw [if_neg (by omega : ¬ priorityAt h (2 * k) < priorityAt h (2 * k + 1))]

/-- Witness for the amended claim C4 at the concrete tie heap. -/
theorem claim_C4_amended_tie_right_witness :
    bubbleDownAux heapC4 0 (leftIdx heapC4 1) (rightIdx heapC4 1) 3 =
      bubbleDownAux (swap heapC4 1 3) 0
        (leftIdx (swap heapC4 1 3) (indexOf (swap heapC4 1 3) 0))
        (rightIdx (swap heapC4 1 3) (indexOf (swap heapC4 1 3) 0)) 2 :=
  claim_C4_amended_tie_right heapC4 0 1 2 (by decide) (by decide) (by decide)
    (by decide) (by decide) (by decide)

/-- The heap built by inserting priorities 5, 3, 8, 1, 4 with identifiers
0, 1, 2, 3, 4 into a fresh heap of capacity 5. -/
def heapC5 : MinHeap :=
  insertAll (newHeap 5 zeroArr zeroMap) [(5, 0), (3, 1), (8, 2), (1, 3), (4, 4)]

/-- Claim C5: a heap built by inserting pairwise-distinct identifiers with
the insert preconditions, then extracted size times, yields nodes in
non-decreasing priority order and ends with size 0; in particular
priorities 5, 3, 8, 1, 4 with identifiers 0 to 4 extract as
1, 3, 4, 5, 8 with final size 0. -/
theorem claim_C5_extraction_order :
    (∀ (capacity : Int) (arrInit : Int → HeapNode) (mapInit : Int → Int)
      (l : List (Int × Int)),
      l.Pairwise (fun a b => a.2 ≠ b.2) →
      (∀ pr ∈ l, 0 ≤ pr.2 ∧ pr.2 < capacity) →
      (l.length : Int) ≤ capacity →
      List.Pairwise (fun a b : HeapNode => a.priority ≤ b.priority)
        (extractList (insertAll (newHeap capacity arrInit mapInit) l)
          l.length).1 ∧
      (extractList (insertAll (newHeap capacity arrInit mapInit) l)
        l.length).2.size = 0) ∧
    ((extractList heapC5 5).1.map HeapNode.priority = [1, 3, 4, 5, 8] ∧
      (extractList heapC5 5).2.size = 0) := by
  constructor
  · intro capacity arrInit mapInit l hpw hrange hlen
    have h0 : heapOrder (newHeap capacity arrInit mapInit) := by
      intro p hp1 hp2
      have hp2 : p ≤ 0 := hp2
      omega
    have hic0 : indexConsistent (newHeap capacity arrInit mapInit) := by
      intro p hp1 hp2
      have hp2 : p ≤ 0 := hp2
      omega
    have habs0 : ∀ pr ∈ l,
        LiveIdAbsent (newHeap capacity arrInit mapInit) pr.2 := by
      intro pr hpr q hq1 hq2
      have hq2 : q ≤ 0 := hq2
      omega
    obtain ⟨a1, a2, a3⟩ := insertAll_inv l _ h0 hic0 le_rfl habs0 hpw
    have hsize : (insertAll (newHeap capacity arrInit mapInit) l).size
        = l.length := by
      rw [a3]
      show (0 : Int) + (l.length : Int) = (l.length : Int)
      omega
    obtain ⟨b1, b2, b3⟩ := extractList_spec l.length _ a1 a2 hsize
    exact ⟨b1, b2⟩
  · exact ⟨by decide, by decide⟩

/-- Witness for claim C5 at the singleton insertion list. -/
theorem claim_C5_extraction_order_witness :
    List.Pairwise (fun a b : HeapNode => a.priority ≤ b.priority)
      (extractList (insertAll (newHeap 1 zeroArr zeroMap) [(7, 0)]) 1).1 ∧
    (extractList (insertAll (newHeap 1 zeroArr zeroMap) [(7, 0)]) 1).2.size
      = 0 :=
  claim_C5_extraction_order.1 1 zeroArr zeroMap [(7, 0)]
    (by decide) (by decide) (by decide)

/-- Claim C6: on a non-empty heap with the invariants, extractMin returns
the node that was at the root before the call, which has minimum priority
among the live nodes, decrements size by exactly one, and clears the
index-map entry of the removed identifier. -/
theorem claim_C6_extractMin_behavior (h : MinHeap)
    (ho : heapOrder h) (hic : indexConsistent h) (hsz : 0 < h.size) :
    (extractMin h).2 = h.arr ROOT_INDEX ∧
    (∀ p : Int, 1 ≤ p → p ≤ h.size →
      ((extractMin h).2).priority ≤ priorityAt h p) ∧
    (extractMin h).1.size = h.size - 1 ∧
    (extractMin h).1.indexMap ((extractMin h).2).id = 0 := by
  obtain ⟨e1, _, _, e4, _, e6, _⟩ := extract_spec h ho hic hsz
  refine ⟨e1, ?_, e4, ?_⟩
  · intro p hp1 hp2
    rw [e1]
    exact root_min ho p hp1 hp2
  · rw [e1]
    exact e6

/-- Witness for claim C6 at the concrete reachable two-node heap. -/
theorem claim_C6_extractMin_behavior_witness :
    (extractMin heapC2w).2 = heapC2w.arr ROOT_INDEX ∧
    (∀ p : Int, 1 ≤ p → p ≤ heapC2w.size →
      ((extractMin heapC2w).2).priority ≤ priorityAt heapC2w p) ∧
    (extractMin heapC2w).1.size = heapC2w.size - 1 ∧
    (extractMin heapC2w).1.indexMap ((extractMin heapC2w).2).id = 0 :=
  claim_C6_extractMin_behavior heapC2w
    (invariants_of_reachable reachable_heapC2w).1
    (invariants_of_reachable reachable_heapC2w).2.1 (by decide)

/-- Claim C7: decreasePriority called with an absent identifier, or with a
new priority that is not strictly smaller than the current priority of the
identifier, returns false and leaves the entire heap state unchanged.  The
source stub returns false and changes nothing on every input, so in
particular on every rejected input. -/
theorem claim_C7_decreasePriority_rejection (h : MinHeap)
    (id newPriority : Int)
    (hrej : LiveIdAbsent h id ∨
      ¬ newPriority < priorityAt h (indexOf h id)) :
    (decreasePriority h id newPriority).2 = false ∧
    (decreasePriority h id newPriority).1 = h :=
  ⟨rfl, rfl⟩

/-- Witness for claim C7: a non-decreasing new priority on the two-node
heap is rejected and the heap is unchanged. -/
theorem claim_C7_decreasePriority_rejection_witness :
    (decreasePriority heapC2w 0 9).2 = false ∧
    (decreasePriority heapC2w 0 9).1 = heapC2w :=
  claim_C7_decreasePriority_rejection heapC2w 0 9 (Or.inr (by decide))

/-- The two-node heap with priorities 1 and 2 and identifiers 0 and 1. -/
def heapC8 : MinHeap :=
  { size := 2, capacity := 2,
    arr := fun p => if p = 1 then ⟨1, 0⟩ else if p = 2 then ⟨2, 1⟩ else ⟨0, 0⟩,
    indexMap := fun i => if i = 0 then 1 else if i = 1 then 2 else 0 }

/-- Counterexample to claim C8: in the two-node heap the root has a live
left child and no live right child, yet the size 2 is even, not odd. -/
theorem claim_C8_counterexample :
    leftIdx heapC8 1 ≠ NOTHING ∧ rightIdx heapC8 1 = NOTHING ∧
    ¬ heapC8.size % 2 = 1 := by
  refine ⟨by decide, by decide, by decide⟩

/-- Claim C8 amended: some live position has a live left child but no
live right child precisely when the size is even and nonzero: a complete
tree with an odd number of nodes gives every internal node two children,
while an even nonzero count leaves exactly the node at position size / 2
with a single left child. -/
theorem claim_C8_amended_single_child_iff (h : MinHeap) :
    (∃ p : Int, leftIdx h p ≠ NOTHING ∧ rightIdx h p = NOTHING) ↔
      (0 < h.size ∧ h.size % 2 = 0) := by
  constructor
  · rintro ⟨p, hl, hr⟩
    rw [leftIdx_eq] at hl
    rw [rightIdx_eq] at hr
    by_cases hc : 1 ≤ p ∧ p ≤ h.size ∧ 2 * p ≤ h.size
    · by_cases hc2 : 1 ≤ p ∧ p ≤ h.size ∧ 2 * p + 1 ≤ h.size
      · rw [if_pos hc2] at hr
        exfalso
        simp only [NOTHING] at hr
        omega
      · constructor <;> omega
    · rw [if_neg hc] at hl
      exact absurd rfl hl
  · rintro ⟨hpos, heven⟩
    refine ⟨h.size / 2, ?_, ?_⟩
    · rw [leftIdx_eq, if_pos ⟨by omega, by omega, by omega⟩]
      simp only [NOTHING]
      omega
    · rw [rightIdx_eq, if_neg (fun hc => absurd hc.2.2 (by omega))]

/-- Claim C9: bubbleUp called with a position that is not a valid live
position leaves the heap unchanged. -/
theorem claim_C9_bubbleUp_invalid (h : MinHeap) (position : Int)
    (hbad : ¬ (1 ≤ position ∧ position ≤ h.size)) :
    bubbleUp h position = h := by
  unfold bubbleUp
  cases hn : position.toNat with
  | zero => rfl
  | succ n =>
    simp only [bubbleUpAux]
    by_cases hsz : h.size = 0
    · rw [if_pos hsz]
    · rw [if_neg hsz, parentIdx_eq, if_pos (Or.inr hbad), if_pos rfl]

/-- Witness for claim C9: the invalid position 5 on a two-node heap. -/
theorem claim_C9_bubbleUp_invalid_witness :
    bubbleUp heapC8 5 = heapC8 :=
  claim_C9_bubbleUp_invalid heapC8 5 (by decide)

/-- Claim C10: after extractMin on a non-empty heap with the invariants,
the index-map entry of the removed identifier is 0, the unused sentinel
position, distinct from the NOTHING value -1, and position 0 is never a
valid live position in any heap. -/
theorem claim_C10_indexMap_zero (h : MinHeap)
    (ho : heapOrder h) (hic : indexConsistent h) (hsz : 0 < h.size) :
    (extractMin h).1.indexMap ((extractMin h).2).id = 0 ∧
    (0 : Int) ≠ NOTHING ∧
    (∀ h2 : MinHeap, isValidIndex h2 0 = false) := by
  obtain ⟨e1, _, _, _, _, e6, _⟩ := extract_spec h ho hic hsz
  refine ⟨?_, by decide, ?_⟩
  · rw [e1]
    exact e6
  · intro h2
    rw [← Bool.not_eq_true, isValidIndex_eq_true]
    omega

/-- Witness for claim C10 at the concrete reachable two-node heap. -/
theorem claim_C10_indexMap_zero_witness :
    (extractMin heapC2w).1.indexMap ((extractMin heapC2w).2).id = 0 ∧
    (0 : Int) ≠ NOTHING ∧
    (∀ h2 : MinHeap, isValidIndex h2 0 = false) :=
  claim_C10_indexMap_zero heapC2w
    (invariants_of_reachable reachable_heapC2w).1
    (invariants_of_reachable reachable_heapC2w).2.1 (by decide)

end MinHeapModel
